import Mathlib

/-!
Shallow embedding of the steganography codec in `src/main.rs` of the
`secret` repository, together with theorems settling the specification
claims about it.

The data model follows the source: an image is a width x height grid of
RGB pixels with 8-bit channels (the `image` crate's `Rgb` buffers).
Channel values are modelled as `Nat`; the predicate `Img.Valid` states the
u8 range invariant that every real buffer satisfies.  Functions that can
panic in Rust (out-of-bounds pixel access, explicit `panic` calls) return
`PanicOr`, whose `panicked` constructor carries the panic message; the
source has no non-aborting error channel.
-/

namespace Secret

/-- Pixel buffer: width, height and a channel-value function.  Channel `0`
is red, `1` green, `2` blue, mirroring `Rgb([u8; 3])` indexing.  Values at
coordinates outside the `width`/`height` range are irrelevant junk. -/
structure Img where
  width : Nat
  height : Nat
  pix : Nat → Nat → Fin 3 → Nat

/-- Invariant of every real `Rgb<u8>` buffer: channel values fit in a byte. -/
def Img.Valid (img : Img) : Prop :=
  ∀ x, x < img.width → ∀ y, y < img.height → ∀ i : Fin 3, img.pix x y i < 256

instance (img : Img) : Decidable img.Valid := by
  unfold Img.Valid
  infer_instance

/-- Result of a Rust computation that can abort: either a value, or a
process-terminating panic carrying its message.  The source never returns
error values; panicking is its only failure mode. -/
inductive PanicOr (α : Type) where
  | panicked (msg : String)
  | ok (val : α)
deriving DecidableEq

/-- Sequencing of two fallible computations; a panic propagates. -/
def PanicOr.andThen {α β : Type} : PanicOr α → (α → PanicOr β) → PanicOr β
  | .panicked m, _ => .panicked m
  | .ok a, f => f a

/-- Panic message of a computation, or `none` if it succeeded. -/
def msgOf {α : Type} : PanicOr α → Option String
  | .panicked m => some m
  | .ok _ => none

/-- Dimensions of the produced image, or `none` if the computation panicked. -/
def dimsOf : PanicOr Img → Option (Nat × Nat)
  | .panicked _ => none
  | .ok img => some (img.width, img.height)

/-- Panic message of `hide_text_in_image`'s capacity check. -/
def insufficientMsg : String := "Insufficient space in the image to hide the text."

/-- Panic message of `extract_text_from_image`'s 32-pixel check. -/
def tooSmallMsg : String := "The image is too small to contain the text length and the text itself."

/-- Panic message of the `image` crate's out-of-bounds pixel accesses
(`get_pixel` / `get_pixel_mut` / `put_pixel`). -/
def oobMsg : String := "Image index out of bounds"

/-- MSB-first bits of one byte: the source's inner loop emits
`(byte >> (7 - bit)) & 1` for `bit` in `0..8`. -/
def byteBits (b : Nat) : List Nat :=
  [(b >>> 7) &&& 1, (b >>> 6) &&& 1, (b >>> 5) &&& 1, (b >>> 4) &&& 1,
   (b >>> 3) &&& 1, (b >>> 2) &&& 1, (b >>> 1) &&& 1, (b >>> 0) &&& 1]

/-- Concatenated MSB-first bitstream of a byte sequence. -/
def bitsOfBytes : List Nat → List Nat
  | [] => []
  | b :: rest => byteBits b ++ bitsOfBytes rest

/-- Byte assembly of `extract_text_from_image`: the accumulator step is
`extracted_byte = (extracted_byte << 1) | lsb`. -/
def byteOfBits (bits : List Nat) : Nat :=
  bits.foldl (fun acc b => (acc <<< 1) ||| b) 0

/-- Group a bitstream into bytes of eight bits each, MSB first; a trailing
group shorter than eight bits is never produced by the extractor. -/
def bytesOfBits : List Nat → List Nat
  | b0 :: b1 :: b2 :: b3 :: b4 :: b5 :: b6 :: b7 :: rest =>
      byteOfBits [b0, b1, b2, b3, b4, b5, b6, b7] :: bytesOfBits rest
  | _ => []

/-- Big-endian bytes of a `u32` (`u32::to_be_bytes`); the caller passes the
length already reduced mod `2 ^ 32` by the `as u32` cast. -/
def toBeBytes32 (n : Nat) : List Nat :=
  [(n >>> 24) &&& 255, (n >>> 16) &&& 255, (n >>> 8) &&& 255, n &&& 255]

/-- Value of four big-endian bytes (`u32::from_be_bytes`). -/
def beVal4 (bytes : List Nat) : Nat :=
  bytes.getD 0 0 * 2 ^ 24 + bytes.getD 1 0 * 2 ^ 16 + bytes.getD 2 0 * 2 ^ 8 + bytes.getD 3 0

/-- UTF-8 encoding of a sequence of Unicode code points.  Rust's `&str` is
UTF-8, so `str::len` is the length of this byte list and `str::bytes`
iterates over it; code points at or above `0x80` occupy more than one byte. -/
def utf8Bytes : List Nat → List Nat
  | [] => []
  | c :: rest =>
    (if c < 0x80 then [c]
     else if c < 0x800 then
       [0xC0 ||| (c >>> 6), 0x80 ||| (c &&& 0x3F)]
     else if c < 0x10000 then
       [0xE0 ||| (c >>> 12), 0x80 ||| ((c >>> 6) &&& 0x3F), 0x80 ||| (c &&& 0x3F)]
     else
       [0xF0 ||| (c >>> 18), 0x80 ||| ((c >>> 12) &&& 0x3F),
        0x80 ||| ((c >>> 6) &&& 0x3F), 0x80 ||| (c &&& 0x3F)]) ++ utf8Bytes rest

/-- Overwrite the red channel of pixel `(x, y)`; `pixel[0] = new_value` on
a mutable buffer, leaving every other coordinate and channel untouched. -/
def setRed (img : Img) (x y v : Nat) : Img :=
  { img with pix := fun a b i => if a = x ∧ b = y ∧ i = 0 then v else img.pix a b i }

/-- Bit-writing loop shared by the two `for byte in ...` loops of
`hide_text_in_image`: for each bit, `get_pixel_mut(x, y)` (panicking when
out of bounds), `pixel[0] = (old & 0xFE) | bit`, then `x += 1` with
`if x >= width { x = 0; y += 1 }`. -/
def writeBitsAux : Img → List Nat → Nat → Nat → PanicOr Img
  | img, [], _, _ => .ok img
  | img, b :: rest, x, y =>
    if x < img.width ∧ y < img.height then
      if x + 1 ≥ img.width then
        writeBitsAux (setRed img x y ((img.pix x y 0 &&& 0xFE) ||| b)) rest 0 (y + 1)
      else
        writeBitsAux (setRed img x y ((img.pix x y 0 &&& 0xFE) ||| b)) rest (x + 1) y
    else .panicked oobMsg

/-- Embedding of `hide_text_in_image`.  `text.len()` is the UTF-8 byte
length; the capacity check compares `(len + 4) * 8` against the `u32`
product `width * height` (reduced mod `2 ^ 32`, as u32 multiplication
wraps); the bitstream is the big-endian `u32` length (the `as u32` cast
reduces the byte length mod `2 ^ 32`) followed by the text's bytes, written
into red-channel least-significant bits in raster order. -/
def hide_text_in_image (image : Img) (text : List Nat) : PanicOr Img :=
  let bytes := utf8Bytes text
  let required_pixels := (bytes.length + 4) * 8
  if required_pixels > (image.width * image.height) % 2 ^ 32 then
    .panicked insufficientMsg
  else
    let text_len_bytes := toBeBytes32 (bytes.length % 2 ^ 32)
    writeBitsAux image (bitsOfBytes (text_len_bytes ++ bytes)) 0 0

/-- Bit-reading loop of `extract_text_from_image`: for each of `k` bits,
`get_pixel(x, y)` (panicking when out of bounds), take `pixel[0] & 1`, then
advance `x`/`y` exactly as the writer does.  Returns the bits read and the
final scan position. -/
def readBitsAux : Img → Nat → Nat → Nat → PanicOr (List Nat × Nat × Nat)
  | _, 0, x, y => .ok ([], x, y)
  | img, k + 1, x, y =>
    if x < img.width ∧ y < img.height then
      let b := img.pix x y 0 &&& 1
      match readBitsAux img k (if x + 1 ≥ img.width then 0 else x + 1)
          (if x + 1 ≥ img.width then y + 1 else y) with
      | .ok (bs, fx, fy) => .ok (b :: bs, fx, fy)
      | .panicked m => .panicked m
    else .panicked oobMsg

/-- Embedding of `extract_text_from_image`: require at least 32 pixels
(`available_pixels` is the wrapped `u32` product), read 32 red-channel LSBs
into a big-endian `u32` length, then read that many bytes, returning each
extracted byte as one character code point (`extracted_byte as char`). -/
def extract_text_from_image (image : Img) : PanicOr (List Nat) :=
  if (image.width * image.height) % 2 ^ 32 < 32 then
    .panicked tooSmallMsg
  else
    match readBitsAux image 32 0 0 with
    | .panicked m => .panicked m
    | .ok (lenBits, x, y) =>
      let text_len := beVal4 (bytesOfBits lenBits)
      match readBitsAux image (8 * text_len) x y with
      | .panicked m => .panicked m
      | .ok (textBits, _, _) => .ok (bytesOfBits textBits)

/-- Whether `2 ^ e ≤ num / den` as exact rationals, in integer arithmetic. -/
def pow2le (e : ℤ) (num den : Nat) : Bool :=
  if 0 ≤ e then den * 2 ^ e.toNat ≤ num else den ≤ num * 2 ^ (-e).toNat

/-- Binade exponent `⌊log2 (num / den)⌋` of a positive rational, found by
search over the exponent range `[-16, 32)`, which covers every value
arising from 8-bit channel data in `normalize_image` (quotients of u8
differences lie in `[1/255, 255]` and products with `255` stay below
`2 ^ 16`; no subnormal or overflowing `f32` values occur there). -/
def findExp (num den : Nat) : ℤ :=
  (List.range 48).foldl
    (fun acc i => if pow2le ((i : ℤ) - 16) num den then (i : ℤ) - 16 else acc) (-16)

/-- Round `num / den` (with `den > 0`) to the nearest integer, ties to even:
the rounding used by IEEE-754 binary arithmetic. -/
def rhe (num den : Nat) : Nat :=
  let q := num / den
  let r := num % den
  if 2 * r < den then q else if den < 2 * r then q + 1 else if q % 2 = 0 then q else q + 1

/-- Nonnegative `f32` value, represented exactly as `m * 2 ^ (e - 23)`;
after rounding a value in the normal range, `m` has 24 significant bits. -/
structure F32 where
  m : Nat
  e : ℤ
deriving DecidableEq

/-- Round a positive rational to the nearest `f32` (round-to-nearest-even):
reduce the fraction, locate its binade, and round the 24-bit significand.
Exact for the normal-range values produced by `normalize_image`. -/
def f32ofRatPos (num den : Nat) : F32 :=
  let g := Nat.gcd num den
  let n := num / g
  let b := den / g
  let e := findExp n b
  ⟨if 0 ≤ 23 - e then rhe (n * 2 ^ (23 - e).toNat) b else rhe n (b * 2 ^ (e - 23).toNat), e⟩

/-- Round a nonnegative rational to the nearest `f32`. -/
def f32ofRat (num den : Nat) : F32 :=
  if num = 0 then ⟨0, 0⟩ else f32ofRatPos num den

/-- Product of an `f32` with a small natural constant, rounded to `f32`:
models the `* 255.0` multiplication. -/
def f32timesNat (f : F32) (k : Nat) : F32 :=
  if f.m = 0 then ⟨0, 0⟩
  else if f.e ≤ 23 then f32ofRatPos (f.m * k) (2 ^ (23 - f.e).toNat)
  else f32ofRatPos (f.m * k * 2 ^ (f.e - 23).toNat) 1

/-- Rust's saturating `as u8` cast of a nonnegative `f32`: truncate toward
zero and clamp into `0..=255`. -/
def f32toU8 (f : F32) : Nat :=
  min 255 (if 0 ≤ f.e - 23 then f.m * 2 ^ (f.e - 23).toNat else f.m / 2 ^ (23 - f.e).toNat)

/-- Per-channel computation of `normalize_image`:
`((value - min_value) as f32 / (max_value - min_value) as f32 * 255.0) as u8`.
Both u8 subtractions convert exactly to `f32`.  When `max_value = min_value`
the divisor converts to `0.0`: `0.0 / 0.0` is NaN, which `as u8` casts to
`0`, and for a positive numerator the quotient is `+inf`, which saturates
to `255` (the in-range pixels of a flat image always hit the NaN case). -/
def normVal (value min_value max_value : Nat) : Nat :=
  let a := value - min_value
  let d := max_value - min_value
  if d = 0 then (if a = 0 then 0 else 255)
  else f32toU8 (f32timesNat (f32ofRat a d) 255)

/-- Channel values of the first `count` pixels in raster order (position
`p` is pixel `(p % width, p / width)`), channels `0`, `1`, `2` per pixel:
the traversal order of `enumerate_pixels` with the inner `for i in 0..3`. -/
def chanValsAux (img : Img) : Nat → List Nat
  | 0 => []
  | p + 1 =>
    chanValsAux img p ++
      [img.pix (p % img.width) (p / img.width) 0,
       img.pix (p % img.width) (p / img.width) 1,
       img.pix (p % img.width) (p / img.width) 2]

/-- All channel values of an image in the scan order of `normalize_image`. -/
def chanVals (img : Img) : List Nat := chanValsAux img (img.width * img.height)

/-- Global minimum of `normalize_image`: `min_value` starts at `255u8` and
is folded with `min` over every channel of every pixel. -/
def minVal (img : Img) : Nat := (chanVals img).foldl min 255

/-- Global maximum of `normalize_image`: `max_value` starts at `0u8` and is
folded with `max` over every channel of every pixel. -/
def maxVal (img : Img) : Nat := (chanVals img).foldl max 0

/-- Embedding of `normalize_image`: compute the global channel minimum and
maximum, then rescale every channel of every pixel with `normVal` into a
fresh buffer of the same dimensions. -/
def normalize_image (hidden : Img) : Img :=
  ⟨hidden.width, hidden.height, fun x y i =>
    if x < hidden.width ∧ y < hidden.height then
      normVal (hidden.pix x y i) (minVal hidden) (maxVal hidden)
    else 0⟩

/-- Embedding of `expand_image`: a `target_width` x `target_height` buffer
holding the source in its top-left corner and black `(0,0,0)` elsewhere. -/
def expand_image (source : Img) (target_width target_height : Nat) : Img :=
  ⟨target_width, target_height, fun x y i =>
    if x < target_width ∧ y < target_height then
      (if x < source.width ∧ y < source.height then source.pix x y i else 0)
    else 0⟩

/-- Modelled from the spec: `DynamicImage::resize_exact` of the external
`image` crate, which resamples an image to exactly the requested width and
height (the source selects the `Lanczos3` filter).  The resampled pixel
values are modelled by nearest-neighbour sampling as a concrete stand-in;
no claim in this development depends on them, only on the dimensions. -/
def resize_exact (img : Img) (target_width target_height : Nat) : Img :=
  ⟨target_width, target_height, fun x y i =>
    if x < target_width ∧ y < target_height then
      img.pix (x * img.width / target_width) (y * img.height / target_height) i
    else 0⟩

/-- Embedding of `hide_image`.  The branch condition is Rust's tuple
comparison `source.dimensions() < secret.dimensions()`, which is
lexicographic.  After the optional reconciliation the code allocates
`ImageBuffer::new(source_width, source_height)` (zero-initialised, with the
ORIGINAL source dimensions), then for every pixel of the reconciled source
reads the reconciled secret at the same coordinates (`get_pixel`, panicking
when out of bounds) and writes
`(source_value & 0xFC) | (secret_value >> 6)` per channel into the output
(`put_pixel`, panicking when out of bounds of the output buffer).  The
loop succeeds exactly when every visited coordinate is inside both the
reconciled secret and the output buffer; unvisited output pixels remain
zero. -/
def hide_image (source secret : Img) (resize expand : Bool) : PanicOr Img :=
  let sw := source.width
  let sh := source.height
  let tw := secret.width
  let th := secret.height
  let pair :=
    if sw < tw ∨ (sw = tw ∧ sh < th) then
      if resize then (resize_exact source tw th, secret)
      else if expand then (expand_image source tw th, secret)
      else (source, secret)
    else
      if resize then (source, resize_exact secret sw sh)
      else if expand then (source, expand_image secret sw sh)
      else (source, secret)
  let rs := pair.1
  let rt := pair.2
  if ∀ x, x < rs.width → ∀ y, y < rs.height →
      x < rt.width ∧ y < rt.height ∧ x < sw ∧ y < sh then
    .ok ⟨sw, sh, fun x y i =>
      if x < rs.width ∧ y < rs.height ∧ x < sw ∧ y < sh then
        (rs.pix x y i &&& 0xFC) ||| (rt.pix x y i >>> 6)
      else 0⟩
  else .panicked oobMsg

/-- Embedding of `decrypt_image`: a fresh buffer of the same dimensions
where every channel is `(hidden_value & 0x03) * 85`. -/
def decrypt_image (hidden : Img) : Img :=
  ⟨hidden.width, hidden.height, fun x y i =>
    if x < hidden.width ∧ y < hidden.height then
      (hidden.pix x y i &&& 0x03) * 85
    else 0⟩

/-- Success test for a fallible computation. -/
def PanicOr.isOk {α : Type} : PanicOr α → Bool
  | .panicked _ => false
  | .ok _ => true

/-- Length declared by an image's first 32 red-channel least-significant
bits, read in raster order and assembled big-endian: the value the text
extractor uses as the byte count to read next. -/
def declaredLen (img : Img) : Nat :=
  beVal4 (bytesOfBits
    ((List.range 32).map (fun j => img.pix (j % img.width) (j / img.width) 0 &&& 1)))

/-- Concrete 1x1 all-black test image. -/
def blackOne : Img := ⟨1, 1, fun _ _ _ => 0⟩

/-- Concrete 2x2 all-black test image. -/
def blackTwoTwo : Img := ⟨2, 2, fun _ _ _ => 0⟩

/-- Concrete 8x8 all-black test image (64 pixels of capacity). -/
def blackEight : Img := ⟨8, 8, fun _ _ _ => 0⟩

/-- Concrete 8x4 all-white test image: exactly 32 pixels, every red LSB set,
so its declared text length is `0xFFFFFFFF`. -/
def whiteEightFour : Img := ⟨8, 4, fun _ _ _ => 255⟩

/-- Concrete 2x1 all-black carrier. -/
def wideTwoOne : Img := ⟨2, 1, fun _ _ _ => 0⟩

/-- Concrete 1x2 all-black secret, larger than `wideTwoOne` in height. -/
def tallOneTwo : Img := ⟨1, 2, fun _ _ _ => 0⟩

/-- Concrete 1x1 flat image with value 7 in every channel. -/
def flatSeven : Img := ⟨1, 1, fun _ _ _ => 7⟩

/-- Concrete 2x1 image with channel values 50 and 200: non-constant, with
global minimum 50 and maximum 200. -/
def rampImg : Img := ⟨2, 1, fun x _ _ => if x = 0 then 50 else 200⟩

/-- Concrete 8x8 carrier with varied u8 channel values. -/
def patternEight : Img := ⟨8, 8, fun x y i => (x + 8 * y + 7 * i.val) % 256⟩

/-- Concrete 1x1 all-white carrier from the specification's example. -/
def whiteOne : Img := ⟨1, 1, fun _ _ _ => 255⟩

/-- Concrete 1x1 secret `(128, 64, 32)` from the specification's example. -/
def specSecretImg : Img := ⟨1, 1, fun _ _ i => if i = 0 then 128 else if i = 1 then 64 else 32⟩

/-! ## Helper lemmas: bit arithmetic -/

theorem and_one_lt_two (a : Nat) : a &&& 1 < 2 := by
  rw [Nat.and_one_is_mod]
  omega

theorem and254_or_and_one (o b : Nat) (hb : b < 2) : ((o &&& 254) ||| b) &&& 1 = b := by
  rw [Nat.and_distrib_right, Nat.land_assoc]
  have h1 : (254 &&& 1 : Nat) = 0 := by decide
  rw [h1]
  have h2 : o &&& 0 = 0 := Nat.and_zero o
  rw [h2, Nat.zero_or, Nat.and_one_is_mod, Nat.mod_eq_of_lt hb]

set_option maxRecDepth 8192 in
theorem and254_or_shiftRight_one :
    ∀ o, o < 256 → ∀ b, b < 2 → ((o &&& 254) ||| b) >>> 1 = o >>> 1 := by decide

theorem and252_or_low2 (a c : Nat) (hc : c < 4) : ((a &&& 252) ||| c) &&& 3 = c := by
  rw [Nat.and_distrib_right, Nat.land_assoc]
  have h1 : (252 &&& 3 : Nat) = 0 := by decide
  rw [h1, Nat.and_zero, Nat.zero_or]
  interval_cases c <;> decide

theorem shiftRight_six_lt_four (b : Nat) (hb : b < 256) : b >>> 6 < 4 := by
  rw [Nat.shiftRight_eq_div_pow]
  omega

/-! ## Helper lemmas: bitstreams and byte assembly -/

set_option maxRecDepth 8192 in
theorem byteOfBits_byteBits : ∀ b, b < 256 → byteOfBits (byteBits b) = b := by decide

theorem mem_byteBits_lt_two (b : Nat) : ∀ x ∈ byteBits b, x < 2 := by
  intro x hx
  simp only [byteBits, List.mem_cons, List.not_mem_nil, or_false] at hx
  rcases hx with h | h | h | h | h | h | h | h <;> exact h ▸ and_one_lt_two _

theorem mem_bitsOfBytes_lt_two (l : List Nat) : ∀ x ∈ bitsOfBytes l, x < 2 := by
  induction l with
  | nil => intro x hx; simp [bitsOfBytes] at hx
  | cons b t ih =>
    intro x hx
    rw [bitsOfBytes, List.mem_append] at hx
    rcases hx with h | h
    · exact mem_byteBits_lt_two b x h
    · exact ih x h

theorem bitsOfBytes_getD_lt_two (l : List Nat) (n : Nat) : (bitsOfBytes l).getD n 0 < 2 := by
  by_cases hn : n < (bitsOfBytes l).length
  · rw [List.getD_eq_getElem _ _ hn]
    exact mem_bitsOfBytes_lt_two l _ (List.getElem_mem hn)
  · rw [List.getD_eq_default _ _ (Nat.le_of_not_lt hn)]
    omega

theorem bitsOfBytes_length (l : List Nat) : (bitsOfBytes l).length = 8 * l.length := by
  induction l with
  | nil => rfl
  | cons b t ih =>
    rw [bitsOfBytes, List.length_append, ih]
    simp [byteBits]
    omega

theorem bitsOfBytes_append (l1 l2 : List Nat) :
    bitsOfBytes (l1 ++ l2) = bitsOfBytes l1 ++ bitsOfBytes l2 := by
  induction l1 with
  | nil => rfl
  | cons b t ih =>
    rw [List.cons_append, bitsOfBytes, bitsOfBytes, ih, List.append_assoc]

theorem bytesOfBits_bitsOfBytes : ∀ l : List Nat, (∀ b ∈ l, b < 256) →
    bytesOfBits (bitsOfBytes l) = l := by
  intro l
  induction l with
  | nil => intro _; rfl
  | cons b t ih =>
    intro h
    have step : bytesOfBits (bitsOfBytes (b :: t)) =
        byteOfBits (byteBits b) :: bytesOfBits (bitsOfBytes t) := rfl
    rw [step, byteOfBits_byteBits b (h b (List.mem_cons_self b t)),
      ih (fun x hx => h x (List.mem_cons_of_mem b hx))]

theorem map_range_getD (l : List Nat) :
    (List.range l.length).map (fun j => l.getD j 0) = l := by
  induction l with
  | nil => rfl
  | cons a t ih =>
    rw [List.length_cons, List.range_succ_eq_map, List.map_cons, List.map_map]
    have hc : ((fun j => (a :: t).getD j 0) ∘ Nat.succ) = fun j => t.getD j 0 := by
      funext j
      simp [Function.comp]
    rw [hc, ih]
    rfl

theorem mem_toBeBytes32_lt (n : Nat) : ∀ b ∈ toBeBytes32 n, b < 256 := by
  intro b hb
  simp only [toBeBytes32, List.mem_cons, List.not_mem_nil, or_false] at hb
  rcases hb with h | h | h | h <;>
    exact h ▸ Nat.lt_succ_of_le (Nat.and_le_right)

theorem and255_eq_mod (a : Nat) : a &&& 255 = a % 256 := by
  have h := Nat.and_pow_two_sub_one_eq_mod a 8
  norm_num at h
  exact h

theorem beVal4_toBeBytes32 (n : Nat) (h : n < 2 ^ 32) : beVal4 (toBeBytes32 n) = n := by
  simp only [beVal4, toBeBytes32, List.getD_cons_zero, List.getD_cons_succ,
    Nat.shiftRight_eq_div_pow, and255_eq_mod]
  omega

/-! ## Helper lemmas: UTF-8 -/

theorem utf8Bytes_ascii : ∀ l : List Nat, (∀ c ∈ l, c < 128) → utf8Bytes l = l := by
  intro l
  induction l with
  | nil => intro _; rfl
  | cons c t ih =>
    intro h
    have hc : c < 0x80 := h c (List.mem_cons_self c t)
    rw [utf8Bytes, if_pos hc, ih (fun x hx => h x (List.mem_cons_of_mem c hx))]
    rfl

/-! ## Helper lemmas: raster positions -/

theorem raster_mod (x y w : Nat) (hx : x < w) : (y * w + x) % w = x := by
  rw [Nat.add_comm, Nat.add_mul_mod_self_right, Nat.mod_eq_of_lt hx]

theorem raster_div (x y w : Nat) (hx : x < w) : (y * w + x) / w = y := by
  have hw : 0 < w := Nat.lt_of_le_of_lt (Nat.zero_le x) hx
  rw [Nat.add_comm, Nat.add_mul_div_right _ _ hw, Nat.div_eq_of_lt hx, Nat.zero_add]

theorem raster_lt (x y w h : Nat) (hx : x < w) (hy : y < h) : y * w + x < w * h := by
  calc y * w + x < y * w + w := by omega
    _ = (y + 1) * w := by rw [Nat.succ_mul]
    _ ≤ h * w := Nat.mul_le_mul_right w hy
    _ = w * h := Nat.mul_comm h w

theorem succ_pos_mod (p w : Nat) (hw : 0 < w) :
    (p + 1) % w = if p % w + 1 = w then 0 else p % w + 1 := by
  have hd := Nat.div_add_mod p w
  have hr : p % w < w := Nat.mod_lt p hw
  split
  · next h =>
    rw [show p + 1 = w * (p / w + 1) by rw [Nat.mul_succ]; omega]
    exact Nat.mul_mod_right w _
  · next h =>
    rw [show p + 1 = w * (p / w) + (p % w + 1) by omega]
    rw [Nat.mul_add_mod, Nat.mod_eq_of_lt (by omega)]

theorem succ_pos_div (p w : Nat) (hw : 0 < w) :
    (p + 1) / w = if p % w + 1 = w then p / w + 1 else p / w := by
  have hd := Nat.div_add_mod p w
  have hr : p % w < w := Nat.mod_lt p hw
  split
  · next h =>
    rw [show p + 1 = w * (p / w + 1) by rw [Nat.mul_succ]; omega]
    exact Nat.mul_div_cancel_left _ hw
  · next h =>
    rw [show p + 1 = w * (p / w) + (p % w + 1) by omega]
    rw [Nat.mul_add_div hw, Nat.div_eq_of_lt (show p % w + 1 < w by omega), Nat.add_zero]

theorem pos_decompose (p w : Nat) (hw : 0 < w) : (p / w) * w + p % w = p := by
  rw [Nat.mul_comm]
  exact Nat.div_add_mod p w

theorem pos_inj (p q w : Nat) (hne : p ≠ q) (hw : 0 < w) :
    ¬(q % w = p % w ∧ q / w = p / w) := by
  rintro ⟨h1, h2⟩
  have hp := pos_decompose p w hw
  have hq := pos_decompose q w hw
  rw [h1, h2] at hq
  omega

/-! ## Correctness of the sequential bit scans -/

theorem setRed_width (img : Img) (x y v : Nat) : (setRed img x y v).width = img.width := rfl

theorem setRed_height (img : Img) (x y v : Nat) : (setRed img x y v).height = img.height := rfl

theorem writeBitsAux_ok (bits : List Nat) : ∀ (img : Img) (p : Nat),
    0 < img.width → p + bits.length ≤ img.width * img.height →
    ∃ out, writeBitsAux img bits (p % img.width) (p / img.width) = .ok out ∧
      out.width = img.width ∧ out.height = img.height ∧
      (∀ x y, ∀ i : Fin 3, i ≠ 0 → out.pix x y i = img.pix x y i) ∧
      (∀ x y, (y * img.width + x < p ∨ p + bits.length ≤ y * img.width + x ∨ img.width ≤ x) →
        out.pix x y 0 = img.pix x y 0) ∧
      (∀ q, p ≤ q → q < p + bits.length →
        out.pix (q % img.width) (q / img.width) 0 =
          ((img.pix (q % img.width) (q / img.width) 0) &&& 254) ||| bits.getD (q - p) 0) := by
  induction bits with
  | nil =>
    intro img p _ _
    exact ⟨img, rfl, rfl, rfl, fun _ _ _ _ => rfl, fun _ _ _ => rfl,
      fun q hq1 hq2 => by simp at hq2; omega⟩
  | cons b rest ih =>
    intro img p hw hle
    have hlen : (b :: rest).length = rest.length + 1 := rfl
    rw [hlen] at hle
    have hp : p < img.width * img.height := by omega
    have hx : p % img.width < img.width := Nat.mod_lt p hw
    have hy : p / img.width < img.height := by
      rw [Nat.div_lt_iff_lt_mul hw, Nat.mul_comm]
      exact hp
    have hstep : writeBitsAux img (b :: rest) (p % img.width) (p / img.width) =
        writeBitsAux
          (setRed img (p % img.width) (p / img.width)
            ((img.pix (p % img.width) (p / img.width) 0 &&& 0xFE) ||| b))
          rest ((p + 1) % img.width) ((p + 1) / img.width) := by
      rw [writeBitsAux, if_pos ⟨hx, hy⟩]
      by_cases hwrap : p % img.width + 1 ≥ img.width
      · have heq : p % img.width + 1 = img.width := by omega
        rw [if_pos hwrap, succ_pos_mod p _ hw, succ_pos_div p _ hw, if_pos heq, if_pos heq]
      · rw [if_neg hwrap, succ_pos_mod p _ hw, succ_pos_div p _ hw,
          if_neg (by omega), if_neg (by omega)]
    obtain ⟨out, hout, how, hoh, hoth, hunch, hwrit⟩ :=
      ih (setRed img (p % img.width) (p / img.width)
            ((img.pix (p % img.width) (p / img.width) 0 &&& 0xFE) ||| b))
        (p + 1) (by rw [setRed_width]; exact hw)
        (by rw [setRed_width, setRed_height]; omega)
    simp only [setRed_width, setRed_height] at hout how hoh hunch hwrit
    refine ⟨out, by rw [hstep, hout], how, hoh, ?_, ?_, ?_⟩
    · intro x y i hi
      rw [hoth x y i hi]
      exact if_neg (fun ⟨_, _, h0⟩ => hi h0)
    · intro x y hcond
      have h1 : out.pix x y 0 =
          (setRed img (p % img.width) (p / img.width)
            ((img.pix (p % img.width) (p / img.width) 0 &&& 0xFE) ||| b)).pix x y 0 := by
        apply hunch
        omega
      rw [h1]
      apply if_neg
      rintro ⟨hxx, hyy, -⟩
      have hq0 : y * img.width + x = p := by
        rw [hxx, hyy]
        exact pos_decompose p _ hw
      rcases hcond with h | h | h
      · omega
      · omega
      · exact absurd (hxx ▸ hx) (Nat.not_lt.mpr h)
    · intro q hq1 hq2
      rcases Nat.eq_or_lt_of_le hq1 with heq | hlt
      · -- the bit written at position p itself; later writes do not revisit it
        subst heq
        have h1 : out.pix (p % img.width) (p / img.width) 0 =
            (setRed img (p % img.width) (p / img.width)
              ((img.pix (p % img.width) (p / img.width) 0 &&& 0xFE) ||| b)).pix
              (p % img.width) (p / img.width) 0 := by
          apply hunch
          left
          rw [pos_decompose p _ hw]
          omega
        rw [h1, Nat.sub_self]
        exact if_pos ⟨rfl, rfl, rfl⟩
      · have h1 := hwrit q hlt (by omega)
        rw [h1]
        have h2 : (setRed img (p % img.width) (p / img.width)
            ((img.pix (p % img.width) (p / img.width) 0 &&& 0xFE) ||| b)).pix
            (q % img.width) (q / img.width) 0 = img.pix (q % img.width) (q / img.width) 0 :=
          if_neg (fun hc => pos_inj p q _ (by omega) hw ⟨hc.1, hc.2.1⟩)
        rw [h2]
        have h3 : q - p = (q - (p + 1)) + 1 := by omega
        rw [h3, List.getD_cons_succ]

theorem readBitsAux_ok (img : Img) (hw : 0 < img.width) : ∀ (k p : Nat),
    p + k ≤ img.width * img.height →
    readBitsAux img k (p % img.width) (p / img.width) =
      .ok ((List.range k).map
            (fun j => img.pix ((p + j) % img.width) ((p + j) / img.width) 0 &&& 1),
        (p + k) % img.width, (p + k) / img.width) := by
  intro k
  induction k with
  | zero =>
    intro p _
    simp [readBitsAux]
  | succ k ih =>
    intro p hle
    have hp : p < img.width * img.height := by omega
    have hx : p % img.width < img.width := Nat.mod_lt p hw
    have hy : p / img.width < img.height := by
      rw [Nat.div_lt_iff_lt_mul hw, Nat.mul_comm]
      exact hp
    have hlist : (List.range (k + 1)).map
        (fun j => img.pix ((p + j) % img.width) ((p + j) / img.width) 0 &&& 1) =
        (img.pix (p % img.width) (p / img.width) 0 &&& 1) ::
          (List.range k).map
            (fun j => img.pix ((p + 1 + j) % img.width) ((p + 1 + j) / img.width) 0 &&& 1) := by
      rw [List.range_succ_eq_map, List.map_cons, List.map_map]
      congr 1
      apply List.map_congr_left
      intro a _
      simp only [Function.comp_apply, Nat.succ_eq_add_one]
      rw [show p + (a + 1) = p + 1 + a by omega]
    rw [readBitsAux, if_pos ⟨hx, hy⟩]
    by_cases hwrap : p % img.width + 1 ≥ img.width
    · have heq : p % img.width + 1 = img.width := by omega
      have hm : (p + 1) % img.width = 0 := by
        rw [succ_pos_mod p _ hw, if_pos heq]
      have hd2 : (p + 1) / img.width = p / img.width + 1 := by
        rw [succ_pos_div p _ hw, if_pos heq]
      have ihp := ih (p + 1) (by omega)
      rw [hm, hd2] at ihp
      rw [if_pos hwrap, if_pos hwrap, ihp]
      dsimp only
      rw [hlist, show p + 1 + k = p + (k + 1) by omega]
    · have hm : (p + 1) % img.width = p % img.width + 1 := by
        rw [succ_pos_mod p _ hw, if_neg (by omega)]
      have hd2 : (p + 1) / img.width = p / img.width := by
        rw [succ_pos_div p _ hw, if_neg (by omega)]
      have ihp := ih (p + 1) (by omega)
      rw [hm, hd2] at ihp
      rw [if_neg hwrap, if_neg hwrap, ihp]
      dsimp only
      rw [hlist, show p + 1 + k = p + (k + 1) by omega]

theorem readBitsAux_oob (img : Img) (hw : 0 < img.width) : ∀ (k p : Nat),
    p ≤ img.width * img.height → img.width * img.height < p + k →
    readBitsAux img k (p % img.width) (p / img.width) = .panicked oobMsg := by
  intro k
  induction k with
  | zero =>
    intro p hp hover
    omega
  | succ k ih =>
    intro p hp hover
    rcases Nat.eq_or_lt_of_le hp with heq | hlt
    · have hyh : p / img.width = img.height := by
        rw [heq, Nat.mul_div_cancel_left _ hw]
      rw [readBitsAux]
      apply if_neg
      rintro ⟨-, h2⟩
      rw [hyh] at h2
      exact lt_irrefl _ h2
    · have hx : p % img.width < img.width := Nat.mod_lt p hw
      have hy : p / img.width < img.height := by
        rw [Nat.div_lt_iff_lt_mul hw, Nat.mul_comm]
        exact hlt
      rw [readBitsAux, if_pos ⟨hx, hy⟩]
      by_cases hwrap : p % img.width + 1 ≥ img.width
      · have heq2 : p % img.width + 1 = img.width := by omega
        have hm : (p + 1) % img.width = 0 := by
          rw [succ_pos_mod p _ hw, if_pos heq2]
        have hd2 : (p + 1) / img.width = p / img.width + 1 := by
          rw [succ_pos_div p _ hw, if_pos heq2]
        have ihp := ih (p + 1) (by omega) (by omega)
        rw [hm, hd2] at ihp
        rw [if_pos hwrap, if_pos hwrap, ihp]
      · have hm : (p + 1) % img.width = p % img.width + 1 := by
          rw [succ_pos_mod p _ hw, if_neg (by omega)]
        have hd2 : (p + 1) / img.width = p / img.width := by
          rw [succ_pos_div p _ hw, if_neg (by omega)]
        have ihp := ih (p + 1) (by omega) (by omega)
        rw [hm, hd2] at ihp
        rw [if_neg hwrap, if_neg hwrap, ihp]

theorem width_pos_of_area (img : Img) (h : 0 < img.width * img.height) : 0 < img.width :=
  Nat.pos_of_ne_zero (fun h0 => by rw [h0, Nat.zero_mul] at h; exact lt_irrefl 0 h)

/-- Claim C10: when the capacity check of `hide_text_in_image` passes, every
pixel access of the raster-order bit-writing scan stays in bounds and the
embedding completes with an output image instead of panicking. -/
theorem hide_text_in_image_in_bounds (img : Img) (text : List Nat)
    (hcap : ((utf8Bytes text).length + 4) * 8 ≤ img.width * img.height % 2 ^ 32) :
    ∃ out, hide_text_in_image img text = .ok out := by
  have hmod : img.width * img.height % 2 ^ 32 ≤ img.width * img.height := Nat.mod_le _ _
  have hw : 0 < img.width := width_pos_of_area img (by omega)
  have hlen :
      (bitsOfBytes (toBeBytes32 ((utf8Bytes text).length % 2 ^ 32) ++ utf8Bytes text)).length =
        ((utf8Bytes text).length + 4) * 8 := by
    rw [bitsOfBytes_length, List.length_append]
    simp only [toBeBytes32, List.length_cons, List.length_nil]
    omega
  obtain ⟨out, hout, -, -, -, -, -⟩ := writeBitsAux_ok
      (bitsOfBytes (toBeBytes32 ((utf8Bytes text).length % 2 ^ 32) ++ utf8Bytes text)) img 0 hw
      (by rw [hlen]; omega)
  rw [Nat.zero_mod, Nat.zero_div] at hout
  refine ⟨out, ?_⟩
  rw [hide_text_in_image]
  dsimp only
  rw [if_neg (by omega)]
  exact hout

/-- Claim C7 (amended): a text whose byte length `n` violates the capacity
bound `(n + 4) * 8 ≤ width * height` makes `hide_text_in_image` panic with
the insufficient-space message, producing no output image. -/
theorem hide_text_capacity_panic (img : Img) (text : List Nat)
    (hcap : ((utf8Bytes text).length + 4) * 8 > img.width * img.height) :
    hide_text_in_image img text = .panicked insufficientMsg := by
  have hmod : img.width * img.height % 2 ^ 32 ≤ img.width * img.height := Nat.mod_le _ _
  rw [hide_text_in_image]
  dsimp only
  rw [if_pos (by omega)]

/-- Claim C9: when the capacity check passes on a u8-valued carrier, the
embedded image keeps the carrier's dimensions, its green and blue channels,
and the upper seven bits of every red channel; only red LSBs change. -/
theorem hide_text_frame_effect (img : Img) (text : List Nat) (hv : img.Valid)
    (hcap : ((utf8Bytes text).length + 4) * 8 ≤ img.width * img.height % 2 ^ 32) :
    ∃ out, hide_text_in_image img text = .ok out ∧
      out.width = img.width ∧ out.height = img.height ∧
      ∀ x, x < img.width → ∀ y, y < img.height →
        out.pix x y 1 = img.pix x y 1 ∧ out.pix x y 2 = img.pix x y 2 ∧
        out.pix x y 0 >>> 1 = img.pix x y 0 >>> 1 := by
  have hmod : img.width * img.height % 2 ^ 32 ≤ img.width * img.height := Nat.mod_le _ _
  have hw : 0 < img.width := width_pos_of_area img (by omega)
  have hlen :
      (bitsOfBytes (toBeBytes32 ((utf8Bytes text).length % 2 ^ 32) ++ utf8Bytes text)).length =
        ((utf8Bytes text).length + 4) * 8 := by
    rw [bitsOfBytes_length, List.length_append]
    simp only [toBeBytes32, List.length_cons, List.length_nil]
    omega
  obtain ⟨out, hout, how, hoh, hoth, hunch, hwrit⟩ := writeBitsAux_ok
      (bitsOfBytes (toBeBytes32 ((utf8Bytes text).length % 2 ^ 32) ++ utf8Bytes text)) img 0 hw
      (by rw [hlen]; omega)
  rw [Nat.zero_mod, Nat.zero_div] at hout
  refine ⟨out, ?_, how, hoh, ?_⟩
  · rw [hide_text_in_image]
    dsimp only
    rw [if_neg (by omega)]
    exact hout
  · intro x hx y hy
    refine ⟨hoth x y 1 (by decide), hoth x y 2 (by decide), ?_⟩
    by_cases hin : y * img.width + x <
        (bitsOfBytes (toBeBytes32 ((utf8Bytes text).length % 2 ^ 32) ++ utf8Bytes text)).length
    · have hwq := hwrit (y * img.width + x) (Nat.zero_le _) (by omega)
      rw [raster_mod x y _ hx, raster_div x y _ hx, Nat.sub_zero] at hwq
      rw [hwq]
      exact and254_or_shiftRight_one _ (hv x hx y hy 0) _ (bitsOfBytes_getD_lt_two _ _)
    · rw [hunch x y (by omega)]

/-- Claim C6: when the 32-bit length prefix declares more content than the
image holds (`32 + 8 * n > width * height`), the extractor's raster scan
walks past the last row and panics with an out-of-bounds pixel access
instead of raising a detectable error. -/
theorem extract_declared_oob (img : Img)
    (h32 : 32 ≤ img.width * img.height)
    (hwrap : img.width * img.height < 2 ^ 32)
    (hover : img.width * img.height < 32 + 8 * declaredLen img) :
    extract_text_from_image img = .panicked oobMsg := by
  have hmod : img.width * img.height % 2 ^ 32 = img.width * img.height :=
    Nat.mod_eq_of_lt hwrap
  have hw : 0 < img.width := width_pos_of_area img (by omega)
  rw [extract_text_from_image]
  dsimp only
  rw [if_neg (by omega)]
  have hread := readBitsAux_ok img hw 32 0 (by omega)
  rw [Nat.zero_mod, Nat.zero_div] at hread
  rw [hread]
  dsimp only
  have hn : beVal4 (bytesOfBits ((List.range 32).map
      (fun j => img.pix ((0 + j) % img.width) ((0 + j) / img.width) 0 &&& 1))) =
      declaredLen img := by
    simp only [Nat.zero_add, declaredLen]
  rw [hn, show (0 + 32 : Nat) = 32 by omega]
  rw [readBitsAux_oob img hw (8 * declaredLen img) 32 (by omega) (by omega)]

/-- Shape of every `hide_image` result: either the out-of-bounds panic, or
an image whose dimensions are the original carrier's. -/
theorem hide_image_shape (source secret : Img) (resize expand : Bool) :
    hide_image source secret resize expand = .panicked oobMsg ∨
    ∃ f, hide_image source secret resize expand = .ok ⟨source.width, source.height, f⟩ := by
  rw [hide_image]
  dsimp only
  repeat' split
  all_goals first
    | (left; rfl)
    | (right; exact ⟨_, rfl⟩)

/-- Claim C4 (amended): whenever `hide_image` completes without panicking,
the output image has the ORIGINAL carrier's width and height, also when a
reconciliation policy is selected — not the elementwise maximum of the two
input dimensions. -/
theorem hide_image_output_dims (source secret : Img) (resize expand : Bool)
    (hpol : resize = true ∨ expand = true)
    (hok : (hide_image source secret resize expand).isOk = true) :
    dimsOf (hide_image source secret resize expand) =
      some (source.width, source.height) := by
  rcases hide_image_shape source secret resize expand with h | ⟨f, h⟩
  · rw [h] at hok
    exact absurd hok (by simp [PanicOr.isOk])
  · rw [h]
    rfl

/-- Claim C1 (amended): for texts whose characters are all ASCII (code
points below 128, hence one UTF-8 byte each), with `(n + 4) * 8` within the
pixel count and the pixel count inside the `u32` range, extraction after
embedding returns exactly the original text. -/
theorem text_roundtrip (img : Img) (text : List Nat)
    (hascii : ∀ c ∈ text, c < 128)
    (hcap : (text.length + 4) * 8 ≤ img.width * img.height)
    (harea : img.width * img.height < 2 ^ 32) :
    (hide_text_in_image img text).andThen extract_text_from_image = .ok text := by
  have hbytes : utf8Bytes text = text := utf8Bytes_ascii text hascii
  have hmod : img.width * img.height % 2 ^ 32 = img.width * img.height :=
    Nat.mod_eq_of_lt harea
  have hw : 0 < img.width := width_pos_of_area img (by omega)
  have hlenmod : text.length % 2 ^ 32 = text.length := Nat.mod_eq_of_lt (by omega)
  have hL32 : (bitsOfBytes (toBeBytes32 text.length)).length = 32 := by
    rw [bitsOfBytes_length]
    rfl
  have hbits : bitsOfBytes (toBeBytes32 text.length ++ text) =
      bitsOfBytes (toBeBytes32 text.length) ++ bitsOfBytes text :=
    bitsOfBytes_append _ _
  have hblen : (bitsOfBytes (toBeBytes32 text.length ++ text)).length =
      (text.length + 4) * 8 := by
    rw [bitsOfBytes_length, List.length_append]
    simp only [toBeBytes32, List.length_cons, List.length_nil]
    omega
  obtain ⟨out, hout, how, hoh, hoth, hunch, hwrit⟩ := writeBitsAux_ok
      (bitsOfBytes (toBeBytes32 text.length ++ text)) img 0 hw (by omega)
  rw [Nat.zero_mod, Nat.zero_div] at hout
  have hhide : hide_text_in_image img text = .ok out := by
    rw [hide_text_in_image]
    dsimp only
    rw [hbytes, hlenmod, if_neg (by omega)]
    exact hout
  rw [hhide]
  show extract_text_from_image out = .ok text
  -- every embedded bit is recoverable from the output's red LSBs
  have hbit : ∀ j, j < (text.length + 4) * 8 →
      out.pix (j % img.width) (j / img.width) 0 &&& 1 =
        (bitsOfBytes (toBeBytes32 text.length ++ text)).getD j 0 := by
    intro j hj
    have hwq := hwrit j (Nat.zero_le _) (by omega)
    rw [Nat.sub_zero] at hwq
    rw [hwq, and254_or_and_one _ _ (bitsOfBytes_getD_lt_two _ _)]
  rw [extract_text_from_image]
  have harea2 : out.width * out.height = img.width * img.height := by rw [how, hoh]
  rw [harea2]
  dsimp only
  rw [if_neg (by omega)]
  have hwout : 0 < out.width := by rw [how]; exact hw
  have hread1 := readBitsAux_ok out hwout 32 0 (by rw [harea2]; omega)
  rw [Nat.zero_mod, Nat.zero_div] at hread1
  rw [hread1]
  dsimp only
  have htlen : (bitsOfBytes text).length = 8 * text.length := bitsOfBytes_length text
  have step1 : (List.range 32).map
      (fun j => out.pix ((0 + j) % out.width) ((0 + j) / out.width) 0 &&& 1) =
      (List.range 32).map (fun j => (bitsOfBytes (toBeBytes32 text.length)).getD j 0) := by
    apply List.map_congr_left
    intro j hj
    rw [List.mem_range] at hj
    rw [Nat.zero_add, how, hbit j (by omega), hbits,
      List.getD_append _ _ _ _ (by rw [hL32]; omega)]
  have step2 : (List.range 32).map
      (fun j => (bitsOfBytes (toBeBytes32 text.length)).getD j 0) =
      bitsOfBytes (toBeBytes32 text.length) := by
    conv_lhs => rw [show (32 : Nat) = (bitsOfBytes (toBeBytes32 text.length)).length
      from hL32.symm]
    exact map_range_getD _
  rw [step1, step2, bytesOfBits_bitsOfBytes _ (mem_toBeBytes32_lt _),
    beVal4_toBeBytes32 _ (by omega)]
  simp only [Nat.zero_add]
  have hread2 := readBitsAux_ok out hwout (8 * text.length) 32 (by rw [harea2]; omega)
  rw [hread2]
  dsimp only
  have step3 : (List.range (8 * text.length)).map
      (fun j => out.pix ((32 + j) % out.width) ((32 + j) / out.width) 0 &&& 1) =
      (List.range (8 * text.length)).map (fun j => (bitsOfBytes text).getD j 0) := by
    apply List.map_congr_left
    intro j hj
    rw [List.mem_range] at hj
    rw [how, hbit (32 + j) (by omega), hbits,
      List.getD_append_right _ _ _ _ (by rw [hL32]; omega), hL32]
    congr 1
    omega
  have step4 : (List.range (8 * text.length)).map
      (fun j => (bitsOfBytes text).getD j 0) = bitsOfBytes text := by
    conv_lhs => rw [show 8 * text.length = (bitsOfBytes text).length from htlen.symm]
    exact map_range_getD _
  rw [step3, step4, bytesOfBits_bitsOfBytes _ (fun b hb => by have := hascii b hb; omega)]

/-- Claim C2: hiding a u8-valued secret of matching dimensions in any
carrier and decrypting the result reconstructs `(secret >> 6) * 85` in
every channel of every pixel, independent of the carrier's content; the
reconstruction is always one of the four levels 0, 85, 170, 255. -/
theorem image_roundtrip (source secret : Img)
    (hwid : secret.width = source.width) (hhei : secret.height = source.height)
    (hv : secret.Valid) (x y : Nat) (i : Fin 3)
    (hx : x < source.width) (hy : y < source.height) :
    ∃ out, hide_image source secret false false = .ok out ∧
      (decrypt_image out).pix x y i = (secret.pix x y i >>> 6) * 85 ∧
      ((decrypt_image out).pix x y i = 0 ∨ (decrypt_image out).pix x y i = 85 ∨
        (decrypt_image out).pix x y i = 170 ∨ (decrypt_image out).pix x y i = 255) := by
  have hc4 : secret.pix x y i >>> 6 < 4 :=
    shiftRight_six_lt_four _ (hv x (hwid ▸ hx) y (hhei ▸ hy) i)
  have hcond : ¬(source.width < secret.width ∨
      (source.width = secret.width ∧ source.height < secret.height)) := by
    rw [hwid, hhei]
    simp
  rw [hide_image]
  dsimp only
  rw [if_neg hcond]
  simp only [Bool.false_eq_true, if_false]
  rw [if_pos (fun a ha b hb => ⟨hwid ▸ ha, hhei ▸ hb, ha, hb⟩)]
  refine ⟨_, rfl, ?_, ?_⟩
  · rw [decrypt_image]
    dsimp only
    rw [if_pos ⟨hx, hy⟩, if_pos ⟨hx, hy, hx, hy⟩]
    rw [and252_or_low2 _ _ hc4]
  · rw [decrypt_image]
    dsimp only
    rw [if_pos ⟨hx, hy⟩, if_pos ⟨hx, hy, hx, hy⟩]
    rw [and252_or_low2 _ _ hc4]
    interval_cases h : secret.pix x y i >>> 6 <;> simp

/-! ## Helper lemmas: the f32 computation of normalize_image -/

theorem f32ofRat_self (d : Nat) (hd : d ≠ 0) : f32ofRat d d = ⟨2 ^ 23, 0⟩ := by
  have hpos : 0 < d := Nat.pos_of_ne_zero hd
  simp only [f32ofRat, hd, if_false, f32ofRatPos, Nat.gcd_self, Nat.div_self hpos]
  decide

theorem normVal_le (v mn mx : Nat) : normVal v mn mx ≤ 255 := by
  simp only [normVal]
  split
  · split <;> omega
  · rw [f32toU8]
    exact Nat.min_le_left 255 _

theorem normVal_min_eq (mn mx : Nat) (h : mn < mx) : normVal mn mn mx = 0 := by
  have hd : mx - mn ≠ 0 := by omega
  simp only [normVal, Nat.sub_self, hd, if_false, f32ofRat, reduceIte]
  decide

theorem normVal_max_eq (mn mx : Nat) (h : mn < mx) : normVal mx mn mx = 255 := by
  have hd : mx - mn ≠ 0 := by omega
  simp only [normVal, hd, if_false, f32ofRat_self _ hd]
  decide

/-! ## Helper lemmas: global minimum and maximum folds -/

theorem foldl_min_le_init (l : List Nat) (a : Nat) : l.foldl min a ≤ a := by
  induction l generalizing a with
  | nil => exact le_refl a
  | cons b t ih => exact le_trans (ih (min a b)) (Nat.min_le_left a b)

theorem foldl_min_le_mem (l : List Nat) (v : Nat) (hv : v ∈ l) : ∀ a, l.foldl min a ≤ v := by
  induction l with
  | nil => exact absurd hv (List.not_mem_nil v)
  | cons b t ih =>
    intro a
    rcases List.mem_cons.mp hv with rfl | hm
    · exact le_trans (foldl_min_le_init t (min a v)) (Nat.min_le_right a v)
    · exact ih hm (min a b)

theorem foldl_min_mem (l : List Nat) (a : Nat) : l.foldl min a = a ∨ l.foldl min a ∈ l := by
  induction l generalizing a with
  | nil => exact Or.inl rfl
  | cons b t ih =>
    rcases ih (min a b) with h | h
    · rcases Nat.le_total a b with hab | hab
      · left
        rw [List.foldl_cons, h, Nat.min_eq_left hab]
      · right
        rw [List.foldl_cons, h, Nat.min_eq_right hab]
        exact List.mem_cons_self b t
    · right
      exact List.mem_cons_of_mem b h

theorem foldl_max_ge_init (l : List Nat) (a : Nat) : a ≤ l.foldl max a := by
  induction l generalizing a with
  | nil => exact le_refl a
  | cons b t ih => exact le_trans (Nat.le_max_left a b) (ih (max a b))

theorem foldl_max_ge_mem (l : List Nat) (v : Nat) (hv : v ∈ l) : ∀ a, v ≤ l.foldl max a := by
  induction l with
  | nil => exact absurd hv (List.not_mem_nil v)
  | cons b t ih =>
    intro a
    rcases List.mem_cons.mp hv with rfl | hm
    · exact le_trans (Nat.le_max_right a v) (foldl_max_ge_init t (max a v))
    · exact ih hm (max a b)

theorem foldl_max_mem (l : List Nat) (a : Nat) : l.foldl max a = a ∨ l.foldl max a ∈ l := by
  induction l generalizing a with
  | nil => exact Or.inl rfl
  | cons b t ih =>
    rcases ih (max a b) with h | h
    · rcases Nat.le_total a b with hab | hab
      · right
        rw [List.foldl_cons, h, Nat.max_eq_right hab]
        exact List.mem_cons_self b t
      · left
        rw [List.foldl_cons, h, Nat.max_eq_left hab]
    · right
      exact List.mem_cons_of_mem b h

theorem mem_chanValsAux (img : Img) (count v : Nat) :
    v ∈ chanValsAux img count ↔
      ∃ p, p < count ∧ ∃ i : Fin 3, v = img.pix (p % img.width) (p / img.width) i := by
  induction count with
  | zero =>
    simp [chanValsAux]
  | succ n ih =>
    rw [chanValsAux, List.mem_append, ih]
    constructor
    · rintro (⟨p, hp, i, hv⟩ | hm)
      · exact ⟨p, Nat.lt_succ_of_lt hp, i, hv⟩
      · simp only [List.mem_cons, List.not_mem_nil, or_false] at hm
        rcases hm with h | h | h
        · exact ⟨n, Nat.lt_succ_self n, 0, h⟩
        · exact ⟨n, Nat.lt_succ_self n, 1, h⟩
        · exact ⟨n, Nat.lt_succ_self n, 2, h⟩
    · rintro ⟨p, hp, i, hv⟩
      rcases Nat.lt_succ_iff_lt_or_eq.mp hp with h | rfl
      · exact Or.inl ⟨p, h, i, hv⟩
      · right
        simp only [List.mem_cons, List.not_mem_nil, or_false]
        fin_cases i
        · exact Or.inl hv
        · exact Or.inr (Or.inl hv)
        · exact Or.inr (Or.inr hv)

theorem mem_chanVals (img : Img) (v : Nat) :
    v ∈ chanVals img ↔
      ∃ p, p < img.width * img.height ∧
        ∃ i : Fin 3, v = img.pix (p % img.width) (p / img.width) i :=
  mem_chanValsAux img (img.width * img.height) v

theorem pix_mem_chanVals (img : Img) (x y : Nat) (i : Fin 3)
    (hx : x < img.width) (hy : y < img.height) : img.pix x y i ∈ chanVals img := by
  rw [mem_chanVals]
  refine ⟨y * img.width + x, raster_lt x y _ _ hx hy, i, ?_⟩
  rw [raster_mod x y _ hx, raster_div x y _ hx]

theorem minVal_le_pix (img : Img) (x y : Nat) (i : Fin 3)
    (hx : x < img.width) (hy : y < img.height) : minVal img ≤ img.pix x y i :=
  foldl_min_le_mem _ _ (pix_mem_chanVals img x y i hx hy) 255

theorem pix_le_maxVal (img : Img) (x y : Nat) (i : Fin 3)
    (hx : x < img.width) (hy : y < img.height) : img.pix x y i ≤ maxVal img :=
  foldl_max_ge_mem _ _ (pix_mem_chanVals img x y i hx hy) 0

theorem chanVals_lt_256 (img : Img) (hv : img.Valid) (v : Nat) (hm : v ∈ chanVals img) :
    v < 256 := by
  rw [mem_chanVals] at hm
  obtain ⟨p, hp, i, rfl⟩ := hm
  have hw : 0 < img.width := width_pos_of_area img (by omega)
  exact hv _ (Nat.mod_lt p hw) _
    (by rw [Nat.div_lt_iff_lt_mul hw, Nat.mul_comm]; exact hp) i

theorem minVal_attained (img : Img) (hv : img.Valid) (hnc : minVal img < maxVal img) :
    minVal img ∈ chanVals img := by
  rcases foldl_min_mem (chanVals img) 255 with h | h
  · exfalso
    rcases foldl_max_mem (chanVals img) 0 with h2 | h2
    · rw [minVal, maxVal] at hnc
      omega
    · have hlt := chanVals_lt_256 img hv _ h2
      rw [minVal, maxVal] at hnc
      rw [h] at hnc
      omega
  · exact h

theorem maxVal_attained (img : Img) (hnc : minVal img < maxVal img) :
    maxVal img ∈ chanVals img := by
  rcases foldl_max_mem (chanVals img) 0 with h | h
  · exfalso
    rw [minVal, maxVal] at hnc
    rw [h] at hnc
    omega
  · exact h

/-- Claim C8: on a u8-valued non-constant input, normalization sends every
channel equal to the global minimum to 0 and every channel equal to the
global maximum to 255, keeps all channels within 0..=255, and the output
attains both 0 and 255 somewhere. -/
theorem normalize_range (img : Img) (hv : img.Valid) (hnc : minVal img < maxVal img) :
    (∀ x, x < img.width → ∀ y, y < img.height → ∀ i : Fin 3,
      (normalize_image img).pix x y i ≤ 255) ∧
    (∀ x, x < img.width → ∀ y, y < img.height → ∀ i : Fin 3,
      img.pix x y i = minVal img → (normalize_image img).pix x y i = 0) ∧
    (∀ x, x < img.width → ∀ y, y < img.height → ∀ i : Fin 3,
      img.pix x y i = maxVal img → (normalize_image img).pix x y i = 255) ∧
    (∃ x, x < img.width ∧ ∃ y, y < img.height ∧ ∃ i : Fin 3,
      (normalize_image img).pix x y i = 0) ∧
    (∃ x, x < img.width ∧ ∃ y, y < img.height ∧ ∃ i : Fin 3,
      (normalize_image img).pix x y i = 255) := by
  have hmin0 : ∀ x, x < img.width → ∀ y, y < img.height → ∀ i : Fin 3,
      img.pix x y i = minVal img → (normalize_image img).pix x y i = 0 := by
    intro x hx y hy i hvme
    rw [normalize_image]
    dsimp only
    rw [if_pos ⟨hx, hy⟩, hvme, normVal_min_eq _ _ hnc]
  have hmax255 : ∀ x, x < img.width → ∀ y, y < img.height → ∀ i : Fin 3,
      img.pix x y i = maxVal img → (normalize_image img).pix x y i = 255 := by
    intro x hx y hy i hvme
    rw [normalize_image]
    dsimp only
    rw [if_pos ⟨hx, hy⟩, hvme, normVal_max_eq _ _ hnc]
  have hw : 0 < img.width := by
    have hmem := minVal_attained img hv hnc
    rw [mem_chanVals] at hmem
    obtain ⟨p, hp, -, -⟩ := hmem
    exact width_pos_of_area img (by omega)
  refine ⟨?_, hmin0, hmax255, ?_, ?_⟩
  · intro x hx y hy i
    rw [normalize_image]
    dsimp only
    rw [if_pos ⟨hx, hy⟩]
    exact normVal_le _ _ _
  · have hmem := minVal_attained img hv hnc
    rw [mem_chanVals] at hmem
    obtain ⟨p, hp, i, hval⟩ := hmem
    have hy : p / img.width < img.height := by
      rw [Nat.div_lt_iff_lt_mul hw, Nat.mul_comm]
      exact hp
    exact ⟨p % img.width, Nat.mod_lt p hw, p / img.width, hy, i,
      hmin0 _ (Nat.mod_lt p hw) _ hy i hval.symm⟩
  · have hmem := maxVal_attained img hnc
    rw [mem_chanVals] at hmem
    obtain ⟨p, hp, i, hval⟩ := hmem
    have hy : p / img.width < img.height := by
      rw [Nat.div_lt_iff_lt_mul hw, Nat.mul_comm]
      exact hp
    exact ⟨p % img.width, Nat.mod_lt p hw, p / img.width, hy, i,
      hmax255 _ (Nat.mod_lt p hw) _ hy i hval.symm⟩

/-- Claim C5: on a perfectly flat input (global minimum equal to global
maximum), `normalize_image` silently maps every in-range channel to 0 --
the `0.0 / 0.0` NaN cast to `u8` -- rather than returning the input
unchanged or failing with an explicit degenerate-image error. -/
theorem normalize_flat (img : Img) (hflat : minVal img = maxVal img) :
    ∀ x, x < img.width → ∀ y, y < img.height → ∀ i : Fin 3,
      (normalize_image img).pix x y i = 0 := by
  intro x hx y hy i
  have hlo := minVal_le_pix img x y i hx hy
  have hhi := pix_le_maxVal img x y i hx hy
  rw [normalize_image]
  dsimp only
  rw [if_pos ⟨hx, hy⟩]
  simp only [normVal]
  rw [if_pos (show maxVal img - minVal img = 0 by omega)]
  rw [if_pos (show img.pix x y i - minVal img = 0 by omega)]

/-! ## Concrete evaluations: counterexamples and witnesses -/

/-- Claim C3: with no reconciliation policy selected and a 2x2 secret
strictly larger than the 1x1 carrier in both axes, `hide_image` does NOT
fail with a size-mismatch error: it completes and returns a 1x1 embedded
image holding only the top-left fragment of the secret. -/
theorem hide_image_no_policy_proceeds :
    dimsOf (hide_image blackOne blackTwoTwo false false) = some (1, 1) := by decide

/-- Claim C1 counterexample: the character U+00E9 has code point 233
(within 0..=255) and UTF-8 byte length 2, so the claim's capacity bound
holds on an 8x8 carrier, yet the round trip returns the two code points
195 and 169 -- the UTF-8 bytes read back as separate characters -- instead
of the original text. -/
theorem text_roundtrip_cex :
    (∀ c ∈ [233], c ≤ 255) ∧
    (((utf8Bytes [233]).length + 4) * 8 ≤ blackEight.width * blackEight.height) ∧
    (hide_text_in_image blackEight [233]).andThen extract_text_from_image = .ok [195, 169] ∧
    (hide_text_in_image blackEight [233]).andThen extract_text_from_image ≠ .ok [233] := by
  decide

/-- Witness for the amended claim C1 at the specification's own example:
the text "Hi" in an 8x8 carrier. -/
theorem text_roundtrip_witness :
    (∀ c ∈ [72, 105], c < 128) ∧
    (([72, 105] : List Nat).length + 4) * 8 ≤ blackEight.width * blackEight.height ∧
    blackEight.width * blackEight.height < 2 ^ 32 ∧
    (hide_text_in_image blackEight [72, 105]).andThen extract_text_from_image =
      .ok [72, 105] :=
  ⟨by decide, by decide, by decide,
    text_roundtrip blackEight [72, 105] (by decide) (by decide) (by decide)⟩

/-- Witness for claim C2 at the specification's example: carrier pixel
`(255,255,255)`, secret pixel `(128,64,32)`. -/
theorem image_roundtrip_witness :
    specSecretImg.width = whiteOne.width ∧ specSecretImg.height = whiteOne.height ∧
    specSecretImg.Valid ∧ 0 < whiteOne.width ∧ 0 < whiteOne.height ∧
    (∃ out, hide_image whiteOne specSecretImg false false = .ok out ∧
      (decrypt_image out).pix 0 0 0 = (specSecretImg.pix 0 0 0 >>> 6) * 85 ∧
      ((decrypt_image out).pix 0 0 0 = 0 ∨ (decrypt_image out).pix 0 0 0 = 85 ∨
        (decrypt_image out).pix 0 0 0 = 170 ∨ (decrypt_image out).pix 0 0 0 = 255)) :=
  ⟨rfl, rfl, by decide, by decide, by decide,
    image_roundtrip whiteOne specSecretImg rfl rfl (by decide) 0 0 0 (by decide) (by decide)⟩

/-- Claim C4 counterexample: carrier 2x1 and secret 1x2 with the expand
policy selected.  The output is 2x1 -- the carrier's dimensions -- not the
elementwise maximum 2x2 of the two inputs' dimensions. -/
theorem hide_image_dims_cex :
    dimsOf (hide_image wideTwoOne tallOneTwo false true) = some (2, 1) ∧
    dimsOf (hide_image wideTwoOne tallOneTwo false true) ≠ some (2, 2) := by decide

/-- Witness for the amended claim C4: equal 1x1 images under the resize
policy; the completed embedding keeps the carrier's dimensions. -/
theorem hide_image_output_dims_witness :
    (true = true ∨ false = true) ∧ (hide_image blackOne blackOne true false).isOk = true ∧
    dimsOf (hide_image blackOne blackOne true false) = some (1, 1) :=
  ⟨Or.inl rfl, by decide,
    hide_image_output_dims blackOne blackOne true false (Or.inl rfl) (by decide)⟩

/-- Witness for claim C5: the flat 1x1 image with value 7 is normalized to
the all-zero image -- neither returned unchanged nor rejected. -/
theorem normalize_flat_witness :
    minVal flatSeven = maxVal flatSeven ∧ flatSeven.pix 0 0 0 = 7 ∧
    (normalize_image flatSeven).pix 0 0 0 = 0 :=
  ⟨by decide, by decide, normalize_flat flatSeven (by decide) 0 (by decide) 0 (by decide) 0⟩

/-- Witness for claim C6: an 8x4 all-white image declares text length
`0xFFFFFFFF` in its red LSBs, and extraction panics out of bounds. -/
theorem extract_declared_oob_witness :
    32 ≤ whiteEightFour.width * whiteEightFour.height ∧
    whiteEightFour.width * whiteEightFour.height < 2 ^ 32 ∧
    whiteEightFour.width * whiteEightFour.height < 32 + 8 * declaredLen whiteEightFour ∧
    extract_text_from_image whiteEightFour = .panicked oobMsg :=
  ⟨by decide, by decide, by decide,
    extract_declared_oob whiteEightFour (by decide) (by decide) (by decide)⟩

/-- Claim C7 counterexample: a 1x1 carrier cannot hold even the empty
text's 32-bit length prefix, and `hide_text_in_image` fails by panicking
with the insufficient-space message -- a process-terminating abort, not an
error-result return. -/
theorem hide_text_capacity_cex :
    (((utf8Bytes ([] : List Nat)).length + 4) * 8 > blackOne.width * blackOne.height) ∧
    msgOf (hide_text_in_image blackOne []) = some insufficientMsg := by decide

/-- Witness for the amended claim C7 at the same 1x1 carrier and empty
text. -/
theorem hide_text_capacity_panic_witness :
    (((utf8Bytes ([] : List Nat)).length + 4) * 8 > blackOne.width * blackOne.height) ∧
    hide_text_in_image blackOne [] = .panicked insufficientMsg :=
  ⟨by decide, hide_text_capacity_panic blackOne [] (by decide)⟩

/-- Witness for claim C8 on the 2x1 image with values 50 and 200. -/
theorem normalize_range_witness :
    rampImg.Valid ∧ minVal rampImg < maxVal rampImg ∧
    ((∀ x, x < rampImg.width → ∀ y, y < rampImg.height → ∀ i : Fin 3,
      (normalize_image rampImg).pix x y i ≤ 255) ∧
    (∀ x, x < rampImg.width → ∀ y, y < rampImg.height → ∀ i : Fin 3,
      rampImg.pix x y i = minVal rampImg → (normalize_image rampImg).pix x y i = 0) ∧
    (∀ x, x < rampImg.width → ∀ y, y < rampImg.height → ∀ i : Fin 3,
      rampImg.pix x y i = maxVal rampImg → (normalize_image rampImg).pix x y i = 255) ∧
    (∃ x, x < rampImg.width ∧ ∃ y, y < rampImg.height ∧ ∃ i : Fin 3,
      (normalize_image rampImg).pix x y i = 0) ∧
    (∃ x, x < rampImg.width ∧ ∃ y, y < rampImg.height ∧ ∃ i : Fin 3,
      (normalize_image rampImg).pix x y i = 255)) :=
  ⟨by decide, by decide, normalize_range rampImg (by decide) (by decide)⟩

/-- Witness for claim C9: embedding "H" into the varied 8x8 carrier. -/
theorem hide_text_frame_effect_witness :
    patternEight.Valid ∧
    (((utf8Bytes [72]).length + 4) * 8 ≤ patternEight.width * patternEight.height % 2 ^ 32) ∧
    (∃ out, hide_text_in_image patternEight [72] = .ok out ∧
      out.width = patternEight.width ∧ out.height = patternEight.height ∧
      ∀ x, x < patternEight.width → ∀ y, y < patternEight.height →
        out.pix x y 1 = patternEight.pix x y 1 ∧ out.pix x y 2 = patternEight.pix x y 2 ∧
        out.pix x y 0 >>> 1 = patternEight.pix x y 0 >>> 1) :=
  ⟨by decide, by decide, hide_text_frame_effect patternEight [72] (by decide) (by decide)⟩

/-- Witness for claim C10: embedding "A" into an 8x8 carrier completes. -/
theorem hide_text_in_image_in_bounds_witness :
    (((utf8Bytes [65]).length + 4) * 8 ≤ blackEight.width * blackEight.height % 2 ^ 32) ∧
    ∃ out, hide_text_in_image blackEight [65] = .ok out :=
  ⟨by decide, hide_text_in_image_in_bounds blackEight [65] (by decide)⟩

end Secret
